import Mathlib

set_option maxHeartbeats 1000000

/-!
Verification development for the aladdin component build script
(src/lib/build-components/build_components/__main__.py).

The Python program is shallowly embedded: configuration values read from a
component.yaml file are modelled by the inductive type `Val`, the UNDEFINED
sentinel by the constructor `Val.undef`, Python truthiness by `Val.truthy` and
the short-circuiting `or` operator by `pyOr`.  The networkx graph algorithms
used by the script (find_cycle, topological_sort, ancestors, subgraph) are not
part of the repository; they are modelled from the specification of
DependencyGraph (spec sections 4.2 and 8): an executable cycle finder returning
a witnessing edge sequence, Kahn-style topological sorting with the remaining
node list scanned in insertion order, and reachability-based ancestor sets.
-/

/-- Values that can appear in a parsed component.yaml, together with the
distinguished UNDEFINED sentinel used by `ComponentConfig.get` defaulting. -/
inductive Val where
  | undef : Val
  | vnull : Val
  | vbool : Bool → Val
  | vint : Int → Val
  | vstr : String → Val
  | vlist : List Val → Val
  | vmap : List (String × Val) → Val

/-- Python truthiness of a configuration value; the `Undefined` sentinel is
falsy (`Undefined.__bool__` returns False). -/
def Val.truthy : Val → Bool
  | .undef => false
  | .vnull => false
  | .vbool b => b
  | .vint n => n != 0
  | .vstr s => s != ""
  | .vlist xs => !xs.isEmpty
  | .vmap kvs => !kvs.isEmpty

/-- Whether a value is the UNDEFINED sentinel (Python's `is UNDEFINED`). -/
def Val.isUndef : Val → Bool
  | .undef => true
  | _ => false

/-- Whether a value is a mapping (Python's `isinstance(d, dict)`). -/
def Val.isMap : Val → Bool
  | .vmap _ => true
  | _ => false

/-- Python's short-circuiting `a or b`: the first operand if truthy, else the
second. -/
def pyOr (a b : Val) : Val :=
  if a.truthy then a else b

/-- Python's `str()` on the scalar values the script stringifies
(`language.version` entries).  Containers and the UNDEFINED sentinel are never
stringified on the executed paths (UNDEFINED is falsy and `str(UNDEFINED)`
raises), so they are mapped to a placeholder. -/
def pyStr : Val → String
  | .vstr s => s
  | .vint n => toString n
  | .vbool b => if b then "True" else "False"
  | .vnull => "None"
  | _ => ""

/-- One step of `ComponentConfig.get`'s reduce:
`d.get(key, default) if isinstance(d, dict) else default`. -/
def getStep (dflt : Val) (d : Val) (key : String) : Val :=
  match d with
  | .vmap kvs =>
    match kvs.find? (fun kv => decide (kv.1 = key)) with
    | some kv => kv.2
    | none => dflt
  | _ => dflt

/-- The representation of the component.yaml (`ComponentConfig`). -/
structure ComponentConfig where
  data : Val

/-- `ComponentConfig.get`: resolve a dot-delimited path by folding the lookup
step over the path segments (in Python the segment list is `path.split(".")`).
The default defaults to UNDEFINED. -/
def ComponentConfig.get (cfg : ComponentConfig) (path : List String)
    (dflt : Val := Val.undef) : Val :=
  path.foldl (getStep dflt) cfg.data

/-- The `UserInfo` namedtuple; the fields hold raw configuration values.
The Python field `sudo` is called `sudoFlag` here because `sudo` is a reserved
token in this Lean environment. -/
structure UserInfo where
  create : Val
  name : Val
  group : Val
  home : Val
  sudoFlag : Val

/-- The `image_base` property: `self.get("image.base")`. -/
def ComponentConfig.imageBase (cfg : ComponentConfig) : Val :=
  cfg.get ["image", "base"]

/-- The `image_user_info` property: the five `image.user.*` lookups. -/
def ComponentConfig.imageUserInfo (cfg : ComponentConfig) : UserInfo :=
  { create := cfg.get ["image", "user", "create"]
    name := cfg.get ["image", "user", "name"]
    group := cfg.get ["image", "user", "group"]
    home := cfg.get ["image", "user", "home"]
    sudoFlag := cfg.get ["image", "user", "sudo"] }

/-- The `language_name` property: `name.lower() if name else UNDEFINED`.
Only string values reach `.lower()` for schema-conforming configs. -/
def ComponentConfig.languageName (cfg : ComponentConfig) : Val :=
  let name := cfg.get ["language", "name"]
  if name.truthy then
    match name with
    | .vstr s => .vstr s.toLower
    | v => v
  else Val.undef

/-- The `language_version` property:
`str(version) if version else UNDEFINED`. -/
def ComponentConfig.languageVersion (cfg : ComponentConfig) : Val :=
  let version := cfg.get ["language", "version"]
  if version.truthy then Val.vstr (pyStr version) else Val.undef

/-- The `image_workdir` property. -/
def ComponentConfig.imageWorkdir (cfg : ComponentConfig) : Val :=
  cfg.get ["image", "workdir"]

/-- The `dependencies` property: `self.get("dependencies", [])`. -/
def ComponentConfig.dependenciesVal (cfg : ComponentConfig) : Val :=
  cfg.get ["dependencies"] (Val.vlist [])

/-- The declared dependency names of a component: per the schema,
`dependencies` is an ordered sequence of component-name strings, and the
script iterates over it when adding graph edges. -/
def ComponentConfig.depNames (cfg : ComponentConfig) : List String :=
  match cfg.dependenciesVal with
  | .vlist xs => xs.filterMap (fun x => match x with | .vstr s => some s | _ => none)
  | _ => []

/-- A directed edge `dependency -> dependent` between component names. -/
abbrev CEdge := String × String

/-- The component dependency graph: node list in insertion order and edge
list in insertion order, modelling the networkx DiGraph built by
`validate_component_dependencies`. -/
structure Graph where
  nodes : List String
  edges : List CEdge
deriving DecidableEq, Repr

/-- The edge relation of a graph. -/
abbrev EdgeRel (g : Graph) (a b : String) : Prop :=
  (a, b) ∈ g.edges

/-- Structural well-formedness maintained by graph construction: node and
edge lists are duplicate-free and edge endpoints are nodes. -/
structure GraphWF (g : Graph) : Prop where
  nodesNodup : g.nodes.Nodup
  edgesNodup : g.edges.Nodup
  edgeFst : ∀ e ∈ g.edges, e.1 ∈ g.nodes
  edgeSnd : ∀ e ∈ g.edges, e.2 ∈ g.nodes

/-- Append an element to a list unless already present (networkx adding a
node or an edge: duplicates are ignored, first insertion fixes position). -/
def insertUnique {α : Type} [DecidableEq α] (l : List α) (a : α) : List α :=
  if a ∈ l then l else l ++ [a]

/-- Deduplicate a list keeping the first occurrence of each element. -/
def dedupFirst {α : Type} [DecidableEq α] (l : List α) : List α :=
  l.foldl insertUnique []

/-- Build the component dependency graph exactly as
`validate_component_dependencies` does: one node per requested component,
plus, for each component, an edge from each declared dependency to the
component (edge endpoints are added as nodes by networkx even when they are
outside the requested set). -/
def buildGraph (components : List String) (configOf : String → ComponentConfig) : Graph :=
  let declEdges := components.flatMap (fun c => ((configOf c).depNames).map (fun d => (d, c)))
  { nodes := declEdges.foldl (fun ns e => insertUnique (insertUnique ns e.1) e.2)
      (dedupFirst components)
    edges := dedupFirst declEdges }

/-- The `BuildInfo` namedtuple fields that the embedded claims consume. -/
structure BuildInfo where
  project : String
  component : String
  componentGraph : Graph
  config : ComponentConfig
  tagHash : String
  defaultLanguageVersion : String

/-- The `dev` property: `self.tag_hash == "local"`. -/
def BuildInfo.dev (bi : BuildInfo) : Bool :=
  bi.tagHash = "local"

/-- The `tag` property: `f"{self.project}-{self.component}:{self.tag_hash}"`. -/
def BuildInfo.tag (bi : BuildInfo) : String :=
  bi.project ++ "-" ++ bi.component ++ ":" ++ bi.tagHash

/-- The `language_version` property:
`self.config.language_version or self.default_language_version`.  The config
property yields either UNDEFINED (falsy, so `or` picks the default) or a
nonempty string (truthy, picked as is); the string content is extracted. -/
def BuildInfo.languageVersion (bi : BuildInfo) : String :=
  match bi.config.languageVersion with
  | .vstr s => if s = "" then bi.defaultLanguageVersion else s
  | _ => bi.defaultLanguageVersion

/-- The record built by the non-raising branch of the `user_info` property:
each field resolved with Python `or` defaulting (`name = "aladdin-user"` is
the local default in the property body). -/
def resolveUserInfo (bi : BuildInfo) : UserInfo :=
  { create := pyOr (bi.config.imageUserInfo).create (Val.vbool bi.config.imageBase.isUndef)
    name := pyOr (bi.config.imageUserInfo).name (Val.vstr "aladdin-user")
    group := pyOr (bi.config.imageUserInfo).group
      (pyOr (bi.config.imageUserInfo).name (Val.vstr "aladdin-user"))
    home := pyOr (bi.config.imageUserInfo).home
      (Val.vstr ("/home/" ++ pyStr (pyOr (bi.config.imageUserInfo).name (Val.vstr "aladdin-user"))))
    sudoFlag := if (bi.config.imageUserInfo).sudoFlag.isUndef then Val.vbool bi.dev
      else (bi.config.imageUserInfo).sudoFlag }

/-- The `user_info` property.  Raises ConfigurationException when a custom
base image is configured without a user name; otherwise resolves each field
with Python `or` defaulting.  The exception is modelled as `Except.error`. -/
def BuildInfo.userInfo (bi : BuildInfo) : Except String UserInfo :=
  if !bi.config.imageBase.isUndef && !(bi.config.imageUserInfo).name.truthy then
    .error "Must provide at least the user.name if not using the default image"
  else
    .ok (resolveUserInfo bi)

/-- Python `s.startswith(pre)`: character-level prefix test. -/
def strStartsWith (s pre : String) : Bool :=
  pre.data.isPrefixOf s.data

/-- Python `s[n:]`: drop the first `n` characters. -/
def strDrop (s : String) (n : Nat) : String :=
  String.mk (s.data.drop n)

/-- Python `len(s)`: number of characters. -/
def strLen (s : String) : Nat :=
  s.data.length

/-- Python equality between a config value and a string literal: true exactly
for an equal string value. -/
def Val.eqStr (v : Val) (s : String) : Bool :=
  match v with
  | .vstr t => t = s
  | _ => false

/-- The language and python-version gates of `build_aladdin_component`:
`language = component_config.language_name or "python"`; for python
components the build fails with ValueError unless the resolved language
version starts with `"3"`; non-python components fail with ValueError. -/
def buildAladdinCheck (bi : BuildInfo) : Except String Unit :=
  let language := pyOr bi.config.languageName (Val.vstr "python")
  if language.eqStr "python" then
    if strStartsWith bi.languageVersion "3" then .ok ()
    else .error ("Unsupported python version for " ++ bi.component ++ " component: "
      ++ bi.languageVersion)
  else .error ("Unsupported language for " ++ bi.component ++ " component")

/-- Modelled from the spec: the "major component" of a version string, the
part before the first dot, used by the spec to state the supported-version
policy.  This definition follows the spec's words and is compared against the
code's `startswith("3")` test. -/
def specMajorComponent (v : String) : String :=
  String.mk (v.data.takeWhile (fun c => c ≠ '.'))

/-- Strip the `"{project}-"` image-name pfx as
`image[image.startswith(prefix) and len(prefix):]` does: Python's `and`
yields `False` (slice start 0) when the test fails and `len(prefix)` when it
succeeds. -/
def stripImageName (projectName image : String) : String :=
  let pfx := projectName ++ "-"
  if strStartsWith image pfx then strDrop image (strLen pfx) else image

/-- The implicit component selection for non-local builds: the set
comprehension over `lamp["docker_images"]` is modelled as a list deduplicated
by keeping first occurrences. -/
def selectPublishComponents (projectName : String) (dockerImages : List String) : List String :=
  dedupFirst (dockerImages.map (stripImageName projectName))

/-- Resolution of the component list at the start of `build_components`:
an explicit nonempty list is used as is; otherwise all discovered components
for a local build, else the publish-derived selection. -/
def resolveComponents (tagHash : String) (requested : List String)
    (allComponents : List String) (projectName : String)
    (dockerImages : List String) : List String :=
  if requested.isEmpty then
    if tagHash = "local" then allComponents
    else selectPublishComponents projectName dockerImages
  else requested

/-- The existence check: `for component in components: if component not in
all_components: raise ValueError(...)`, failing at the first missing name. -/
def checkComponentsExist (components allComponents : List String) :
    Except String Unit :=
  match components.find? (fun c => !(allComponents.contains c)) with
  | some c => .error ("Component '" ++ c ++ "' does not exist")
  | none => .ok ()

/-- `IsEdgePath g a p b`: `p` is a consecutive sequence of graph edges
leading from `a` to `b`. -/
def IsEdgePath (g : Graph) : String → List CEdge → String → Prop
  | a, [], b => a = b
  | a, e :: es, b => e.1 = a ∧ e ∈ g.edges ∧ IsEdgePath g e.2 es b

/-- Reachability bookkeeping: nodes already reached, each with a witnessing
edge path from the start node. -/
abbrev PathMap := List (String × List CEdge)

/-- The reached nodes of a path map. -/
def pmKeys (S : PathMap) : List String :=
  S.map Prod.fst

/-- Process one graph edge: if its source is reached and its target is not,
reach the target by extending the source's witness path. -/
def addEdgeStep (S : PathMap) (e : CEdge) : PathMap :=
  match S.find? (fun q => decide (q.1 = e.1)) with
  | some q => if e.2 ∈ pmKeys S then S else S ++ [(e.2, q.2 ++ [e])]
  | none => S

/-- Expand a path map once along every edge of the graph. -/
def stepClosure (g : Graph) (S : PathMap) : PathMap :=
  g.edges.foldl addEdgeStep S

/-- Saturate the path map; `nodes.length + 1` expansion rounds always reach a
fixed point because each non-fixed round strictly grows the map, whose size
is bounded by the node count. -/
def saturate (g : Graph) (S : PathMap) : PathMap :=
  (stepClosure g)^[g.nodes.length + 1] S

/-- The immediate successors of `n`, each reached by the single edge. -/
def seedsFrom (g : Graph) (n : String) : PathMap :=
  (g.edges.filter (fun e => decide (e.1 = n))).map (fun e => (e.2, [e]))

/-- All nodes reachable from `n` by a nonempty edge path, with witnesses. -/
def reachPaths (g : Graph) (n : String) : PathMap :=
  saturate g (seedsFrom g n)

/-- Decidable nonempty-path reachability. -/
def reachesb (g : Graph) (a b : String) : Bool :=
  decide (b ∈ pmKeys (reachPaths g a))

/-- A cycle through `n`, when `n` reaches itself: the recorded witness path.
Models the cycle search of `networkx.algorithms.cycles.find_cycle` at node
`n` (spec: the error carries the offending cycle as a sequence of edges). -/
def findCycleFrom (g : Graph) (n : String) : Option (List CEdge) :=
  ((reachPaths g n).find? (fun q => decide (q.1 = n))).map (fun q => q.2)

/-- First cycle found over the graph's nodes, `none` when the graph is
acyclic; models `networkx.algorithms.cycles.find_cycle` per the spec. -/
def findCycle (g : Graph) : Option (List CEdge) :=
  g.nodes.findSome? (findCycleFrom g)

/-- Acyclicity: no node reaches itself through a nonempty edge path. -/
def Acyclic (g : Graph) : Prop :=
  ∀ n, ¬ Relation.TransGen (EdgeRel g) n n

/-- Kahn's algorithm step: repeatedly emit the first remaining node without
an incoming edge from the remaining set; models
`networkx.algorithms.dag.topological_sort` per the spec (any valid
topological order, ties broken by insertion order). -/
def kahnAux (edges : List CEdge) : Nat → List String → Option (List String)
  | 0, remaining => if remaining.isEmpty then some [] else none
  | fuel + 1, remaining =>
    if remaining.isEmpty then some []
    else
      match remaining.find? (fun n => decide (∀ e ∈ edges, e.2 = n → e.1 ∉ remaining)) with
      | none => none
      | some n => (kahnAux edges fuel (remaining.erase n)).map (fun order => n :: order)

/-- Topological sort of the whole graph (`none` only on cyclic graphs, where
networkx raises instead). -/
def topologicalSort (g : Graph) : Option (List String) :=
  kahnAux g.edges g.nodes.length g.nodes

/-- `validate_component_dependencies`: build the dependency graph, then fail
with the offending cycle's edges if one exists. -/
def validateComponentDependencies (components : List String)
    (configOf : String → ComponentConfig) : Except (List CEdge) Graph :=
  let g := buildGraph components configOf
  match findCycle g with
  | none => .ok g
  | some cyc => .error cyc

/-- Fatal outcomes of a `build_components` run. -/
inductive BuildError where
  | cycle (edges : List CEdge)
  | internal
  | dispatchFailure (component : String)

/-- Sequential dispatch of the ordered components: returns the components
dispatched (attempted), the components reported built, and the first failing
component if any; `ok` abstracts the per-component build backend (the body of
the try block in `build_components`). -/
def dispatchLoop (ok : String → Bool) : List String → List String × List String × Option String
  | [] => ([], [], none)
  | c :: rest =>
    if ok c then
      match dispatchLoop ok rest with
      | (att, blt, f) => (c :: att, c :: blt, f)
    else ([c], [], some c)

/-- Observable result of a `build_components` run from the cycle check
onwards (lines 342-381): which components were dispatched, which were
reported built, and the outcome. -/
structure RunResult where
  dispatched : List String
  built : List String
  outcome : Except BuildError Unit

/-- `build_components` from the cycle check onwards: validate the dependency
graph, order the requested components topologically (filtering the full
order to the requested set), then dispatch sequentially until the first
failure. -/
def runBuild (components : List String) (configOf : String → ComponentConfig)
    (ok : String → Bool) : RunResult :=
  let g := buildGraph components configOf
  match findCycle g with
  | some cyc => ⟨[], [], .error (.cycle cyc)⟩
  | none =>
    match topologicalSort g with
    | none => ⟨[], [], .error .internal⟩
    | some order =>
      let dispatch := order.filter (fun c => decide (c ∈ components))
      match dispatchLoop ok dispatch with
      | (att, blt, none) => ⟨att, blt, .ok ()⟩
      | (att, blt, some c) => ⟨att, blt, .error (.dispatchFailure c)⟩

/-- Modelled from the spec (networkx `ancestors`): all nodes other than `c`
with a directed path to `c`, in node order. -/
def ancestors (g : Graph) (c : String) : List String :=
  g.nodes.filter (fun n => decide (n ≠ c) && reachesb g n c)

/-- Modelled from the spec (networkx `subgraph`): the induced subgraph over
`keep`, nodes and edges in original order. -/
def Graph.subgraph (g : Graph) (keep : List String) : Graph :=
  { nodes := g.nodes.filter (fun n => decide (n ∈ keep))
    edges := g.edges.filter (fun e => decide (e.1 ∈ keep) && decide (e.2 ∈ keep)) }

/-- The `BuildInfo.dependencies` property: topological sort of the subgraph
induced on the ancestors of the component (`none` models the networkx
exception on cyclic graphs, never hit after validation). -/
def BuildInfo.dependencies (bi : BuildInfo) : Option (List String) :=
  topologicalSort (bi.componentGraph.subgraph (ancestors bi.componentGraph bi.component))

/-- The `BuildInfo.components` property: the dependencies followed by the
component itself. -/
def BuildInfo.components (bi : BuildInfo) : Option (List String) :=
  (BuildInfo.dependencies bi).map (fun ds => ds ++ [bi.component])

/-- Whether a lookup step fails at value `v` and segment `seg`: either `v` is
not a mapping or the mapping lacks the key. -/
def segMisses (v : Val) (seg : String) : Bool :=
  match v with
  | .vmap kvs => (kvs.find? (fun kv => decide (kv.1 = seg))).isNone
  | _ => true

lemma getStep_of_misses {dflt v : Val} {seg : String} (h : segMisses v seg = true) :
    getStep dflt v seg = dflt := by
  cases v with
  | vmap kvs =>
    have h' : kvs.find? (fun kv => decide (kv.1 = seg)) = none :=
      Option.isNone_iff_eq_none.mp h
    change (match kvs.find? (fun kv => decide (kv.1 = seg)) with
      | some kv => kv.2
      | none => dflt) = dflt
    rw [h']
  | undef => rfl
  | vnull => rfl
  | vbool b => rfl
  | vint n => rfl
  | vstr s => rfl
  | vlist xs => rfl

lemma getStep_self_of_not_isMap {dflt : Val} (h : dflt.isMap = false) (seg : String) :
    getStep dflt dflt seg = dflt := by
  cases dflt <;> simp_all [getStep, Val.isMap]

lemma foldl_getStep_dflt {dflt : Val} (h : dflt.isMap = false) (path : List String) :
    List.foldl (getStep dflt) dflt path = dflt := by
  induction path with
  | nil => rfl
  | cons s rest ih => rw [List.foldl_cons, getStep_self_of_not_isMap h s, ih]

/-- C8 (amended): for every config, every path and every non-mapping default,
`ComponentConfig.get` returns the default as soon as a path segment misses
(the current value is not a mapping or lacks the segment), and the result
does not depend on the segments after the first miss; the function is total,
so missing intermediate nodes never raise. -/
theorem componentConfigGet_default_propagates
    (cfg : ComponentConfig) (path1 path2 : List String) (seg : String) (dflt : Val)
    (hd : dflt.isMap = false)
    (hmiss : segMisses (cfg.get path1 dflt) seg = true) :
    cfg.get (path1 ++ seg :: path2) dflt = dflt := by
  unfold ComponentConfig.get at *
  rw [List.foldl_append, List.foldl_cons, getStep_of_misses hmiss,
    foldl_getStep_dflt hd path2]

/-- C8 (counterexample): with a mapping default, a missed segment does not
return the default: descent continues into the default mapping, and the
result depends on the segments after the miss. -/
theorem componentConfigGet_mapping_default_descends :
    ComponentConfig.get ⟨Val.vmap []⟩ ["a", "b"] (Val.vmap [("b", Val.vint 42)])
        = Val.vint 42 ∧
    Val.vint 42 ≠ Val.vmap [("b", Val.vint 42)] ∧
    ComponentConfig.get ⟨Val.vmap []⟩ ["a", "c"] (Val.vmap [("b", Val.vint 42)])
        = Val.vmap [("b", Val.vint 42)] :=
  ⟨rfl, fun h => Val.noConfusion h, rfl⟩

/-- C8 (witness): a concrete instance of the amended statement. -/
theorem componentConfigGet_default_propagates_witness :
    (Val.vstr "d").isMap = false ∧
    segMisses (ComponentConfig.get ⟨Val.vmap []⟩ [] (Val.vstr "d")) "a" = true ∧
    ComponentConfig.get ⟨Val.vmap []⟩ (([] : List String) ++ "a" :: ["b"]) (Val.vstr "d")
        = Val.vstr "d" :=
  ⟨rfl, rfl,
    componentConfigGet_default_propagates ⟨Val.vmap []⟩ [] ["b"] "a" (Val.vstr "d") rfl rfl⟩

lemma isUndef_eq_false_of_ne {v : Val} (h : v ≠ Val.undef) : v.isUndef = false := by
  cases v <;> simp_all [Val.isUndef]

lemma truthy_pyOr {a b : Val} (hb : b.truthy = true) : (pyOr a b).truthy = true := by
  unfold pyOr
  split
  · assumption
  · exact hb

/-- C4: with `image.base`, `image.user.name` and `image.user.sudo` all unset,
user-info resolution succeeds, the resolved `create` is (boolean) true, the
resolved `name` is the string `"aladdin-user"`, and the resolved `sudo` is
true exactly when the tag hash is `"local"`. -/
theorem userInfo_defaults (bi : BuildInfo)
    (hbase : bi.config.imageBase = Val.undef)
    (hname : (bi.config.imageUserInfo).name = Val.undef)
    (hsudo : (bi.config.imageUserInfo).sudoFlag = Val.undef) :
    ∃ u, bi.userInfo = Except.ok u ∧ u.create.truthy = true ∧
      u.name = Val.vstr "aladdin-user" ∧
      (u.sudoFlag.truthy = true ↔ bi.tagHash = "local") := by
  refine ⟨resolveUserInfo bi, ?_, ?_, ?_, ?_⟩
  · unfold BuildInfo.userInfo
    rw [hbase]
    rfl
  · simp only [resolveUserInfo]
    rw [hbase]
    exact truthy_pyOr rfl
  · simp only [resolveUserInfo]
    rw [hname]
    rfl
  · simp only [resolveUserInfo]
    rw [hsudo]
    simp [Val.isUndef, Val.truthy, BuildInfo.dev]

/-- C4 (witness): the empty config on a local build. -/
theorem userInfo_defaults_witness :
    ∃ u, (BuildInfo.mk "proj" "comp" ⟨[], []⟩ ⟨Val.vmap []⟩ "local" "3.8").userInfo
        = Except.ok u ∧
      u.create.truthy = true ∧ u.name = Val.vstr "aladdin-user" ∧
      (u.sudoFlag.truthy = true ↔
        (BuildInfo.mk "proj" "comp" ⟨[], []⟩ ⟨Val.vmap []⟩ "local" "3.8").tagHash = "local") :=
  userInfo_defaults _ rfl rfl rfl

/-- C6: whenever `image.base` is explicitly set (any non-UNDEFINED value) and
`image.user.name` is unset, user-info resolution raises the
ConfigurationException, regardless of the tag hash and of the remaining user
fields. -/
theorem userInfo_custom_base_requires_name (bi : BuildInfo)
    (hbase : bi.config.imageBase ≠ Val.undef)
    (hname : (bi.config.imageUserInfo).name = Val.undef) :
    bi.userInfo
      = Except.error "Must provide at least the user.name if not using the default image" := by
  unfold BuildInfo.userInfo
  rw [isUndef_eq_false_of_ne hbase, hname]
  rfl

/-- C6 (witness): a custom base image with no user section. -/
theorem userInfo_custom_base_requires_name_witness :
    (BuildInfo.mk "proj" "comp" ⟨[], []⟩
        ⟨Val.vmap [("image", Val.vmap [("base", Val.vstr "debian:11")])]⟩
        "local" "3.8").userInfo
      = Except.error "Must provide at least the user.name if not using the default image" :=
  userInfo_custom_base_requires_name _ (fun h => Val.noConfusion h) rfl

/-- The component config declaring `image.user.create: false` and nothing
else; used to refute C9. -/
def cfgCreateFalse : ComponentConfig :=
  ⟨Val.vmap [("image", Val.vmap [("user", Val.vmap [("create", Val.vbool false)])])]⟩

/-- C9 (counterexample): with `image.base` unset and `image.user.create`
explicitly false, the resolved `create` field is `True`, not false: the code
computes `create or (image.base is UNDEFINED)`, so the explicit false is
overridden. -/
theorem userInfo_create_not_overridable :
    (cfgCreateFalse.imageUserInfo).create = Val.vbool false ∧
    cfgCreateFalse.imageBase = Val.undef ∧
    (BuildInfo.mk "proj" "comp" ⟨[], []⟩ cfgCreateFalse "local" "3.8").userInfo
        = Except.ok (resolveUserInfo (BuildInfo.mk "proj" "comp" ⟨[], []⟩ cfgCreateFalse "local" "3.8")) ∧
    (resolveUserInfo (BuildInfo.mk "proj" "comp" ⟨[], []⟩ cfgCreateFalse "local" "3.8")).create
        = Val.vbool true :=
  ⟨rfl, rfl, rfl, rfl⟩

/-- C9 (amended): when `image.base` is unset, the resolved `create` field is
`True` whenever the configured `image.user.create` is falsy — an explicit
`create: false` is not honoured; the create value resolves as
`create or (image.base is UNDEFINED)`. -/
theorem userInfo_create_forced_when_default_base (bi : BuildInfo)
    (hbase : bi.config.imageBase = Val.undef)
    (hcreate : (bi.config.imageUserInfo).create.truthy = false) :
    ∃ u, bi.userInfo = Except.ok u ∧ u.create = Val.vbool true := by
  refine ⟨resolveUserInfo bi, ?_, ?_⟩
  · unfold BuildInfo.userInfo
    rw [hbase]
    rfl
  · simp only [resolveUserInfo]
    rw [hbase]
    unfold pyOr
    rw [hcreate]
    rfl

/-- C9 (witness): a concrete falsy-create config under the default base. -/
theorem userInfo_create_forced_when_default_base_witness :
    ∃ u, (BuildInfo.mk "proj" "comp" ⟨[], []⟩ cfgCreateFalse "local" "3.8").userInfo
        = Except.ok u ∧ u.create = Val.vbool true :=
  userInfo_create_forced_when_default_base _ rfl rfl

/-- The component config declaring `language.version: "30.1"`. -/
def cfgVersion301 : ComponentConfig :=
  ⟨Val.vmap [("language", Val.vmap [("version", Val.vstr "30.1")])]⟩

/-- The component config declaring `language.version: "2.7"`. -/
def cfgVersion27 : ComponentConfig :=
  ⟨Val.vmap [("language", Val.vmap [("version", Val.vstr "2.7")])]⟩

/-- C5 (counterexample): version "30.1" has major component "30", not "3",
yet the plan gate accepts it, because the code tests `startswith("3")` rather
than comparing the major component. -/
theorem versionGate_not_major_component :
    (BuildInfo.mk "proj" "comp" ⟨[], []⟩ cfgVersion301 "local" "3.8").languageVersion
        = "30.1" ∧
    specMajorComponent "30.1" ≠ "3" ∧
    buildAladdinCheck (BuildInfo.mk "proj" "comp" ⟨[], []⟩ cfgVersion301 "local" "3.8")
        = Except.ok () :=
  ⟨rfl, by decide, rfl⟩

/-- C5 (amended): for configs whose language resolves to python, the plan
gate fails with the unsupported-version ValueError exactly when the resolved
language version does not start with the character "3" (Python
`startswith("3")`, not a major-component comparison); in particular "2.7"
fails and any version starting with "3" passes. -/
theorem versionGate_iff_startsWith (bi : BuildInfo)
    (hlang : pyOr bi.config.languageName (Val.vstr "python") = Val.vstr "python") :
    buildAladdinCheck bi =
      (if strStartsWith bi.languageVersion "3" then Except.ok ()
       else Except.error ("Unsupported python version for " ++ bi.component
         ++ " component: " ++ bi.languageVersion)) := by
  simp only [buildAladdinCheck]
  rw [hlang]
  rfl

/-- C5 (witness): the "2.7" config resolves version "2.7" and the gate
reports the unsupported-version error. -/
theorem versionGate_iff_startsWith_witness :
    buildAladdinCheck (BuildInfo.mk "proj" "comp" ⟨[], []⟩ cfgVersion27 "local" "3.8") =
      (if strStartsWith
            (BuildInfo.mk "proj" "comp" ⟨[], []⟩ cfgVersion27 "local" "3.8").languageVersion "3"
       then Except.ok ()
       else Except.error ("Unsupported python version for "
         ++ (BuildInfo.mk "proj" "comp" ⟨[], []⟩ cfgVersion27 "local" "3.8").component
         ++ " component: "
         ++ (BuildInfo.mk "proj" "comp" ⟨[], []⟩ cfgVersion27 "local" "3.8").languageVersion)) :=
  versionGate_iff_startsWith _ rfl

lemma mem_insertUnique {α : Type} [DecidableEq α] {l : List α} {a b : α} :
    b ∈ insertUnique l a ↔ b ∈ l ∨ b = a := by
  unfold insertUnique
  split
  · rename_i h
    constructor
    · exact Or.inl
    · rintro (hb | rfl)
      · exact hb
      · exact h
  · simp [List.mem_append]

lemma insertUnique_nodup {α : Type} [DecidableEq α] {l : List α} (h : l.Nodup) (a : α) :
    (insertUnique l a).Nodup := by
  unfold insertUnique
  split
  · exact h
  · rename_i ha
    simp [List.nodup_append, h, ha]

lemma foldl_insertUnique_mem {α : Type} [DecidableEq α] (l : List α) :
    ∀ (acc : List α) (b : α), b ∈ l.foldl insertUnique acc ↔ b ∈ acc ∨ b ∈ l := by
  induction l with
  | nil => simp
  | cons a l ih =>
    intro acc b
    rw [List.foldl_cons, ih, mem_insertUnique]
    constructor
    · rintro ((hb | rfl) | hb)
      · exact Or.inl hb
      · exact Or.inr (List.mem_cons_self _ _)
      · exact Or.inr (List.mem_cons_of_mem _ hb)
    · rintro (hb | hb)
      · exact Or.inl (Or.inl hb)
      · rcases List.mem_cons.mp hb with rfl | hb
        · exact Or.inl (Or.inr rfl)
        · exact Or.inr hb

lemma foldl_insertUnique_nodup {α : Type} [DecidableEq α] (l : List α) :
    ∀ acc : List α, acc.Nodup → (l.foldl insertUnique acc).Nodup := by
  induction l with
  | nil => intro acc h; exact h
  | cons a l ih => intro acc h; exact ih _ (insertUnique_nodup h a)

lemma mem_dedupFirst {α : Type} [DecidableEq α] {l : List α} {b : α} :
    b ∈ dedupFirst l ↔ b ∈ l := by
  unfold dedupFirst
  rw [foldl_insertUnique_mem]
  simp

lemma dedupFirst_nodup {α : Type} [DecidableEq α] (l : List α) : (dedupFirst l).Nodup :=
  foldl_insertUnique_nodup l [] List.nodup_nil

/-- C10: with no explicit component list and a non-local tag hash, the
selection is exactly the docker_images entries with the leading
`"{project}-"` removed when present and taken verbatim otherwise, duplicates
collapsed (set semantics, no duplicates, membership characterised by
`stripImageName`); the pre-dispatch existence check succeeds exactly when
every selected name is among the discovered components, and otherwise the
run fails. -/
theorem publishSelection_spec (tagHash projectName : String)
    (dockerImages allComponents : List String) (hlocal : tagHash ≠ "local") :
    resolveComponents tagHash [] allComponents projectName dockerImages
        = selectPublishComponents projectName dockerImages ∧
    (selectPublishComponents projectName dockerImages).Nodup ∧
    (∀ s, s ∈ selectPublishComponents projectName dockerImages ↔
        ∃ img ∈ dockerImages, s = stripImageName projectName img) ∧
    (checkComponentsExist (selectPublishComponents projectName dockerImages) allComponents
        = Except.ok ()
      ↔ ∀ s ∈ selectPublishComponents projectName dockerImages, s ∈ allComponents) := by
  refine ⟨?_, dedupFirst_nodup _, ?_, ?_⟩
  · unfold resolveComponents
    simp [hlocal]
  · intro s
    unfold selectPublishComponents
    rw [mem_dedupFirst]
    simp [List.mem_map, eq_comm]
  · cases hf : (selectPublishComponents projectName dockerImages).find?
        (fun c => !(allComponents.contains c)) with
    | none =>
      simp only [checkComponentsExist, hf]
      rw [List.find?_eq_none] at hf
      constructor
      · intro _ s hs
        have := hf s hs
        simpa using this
      · intro _
        trivial
    | some c =>
      simp only [checkComponentsExist, hf]
      constructor
      · intro h
        exact absurd h (by simp)
      · intro hall
        have hc := List.mem_of_find?_eq_some hf
        have hp := List.find?_some hf
        have hmem : c ∈ allComponents := hall c hc
        simp [hmem] at hp

/-- C10 (witness): project "proj", images ["proj-api", "web", "proj-api"]. -/
theorem publishSelection_spec_witness :
    resolveComponents "ci" [] ["api", "web"] "proj" ["proj-api", "web", "proj-api"]
        = selectPublishComponents "proj" ["proj-api", "web", "proj-api"] ∧
    (selectPublishComponents "proj" ["proj-api", "web", "proj-api"]).Nodup ∧
    (∀ s, s ∈ selectPublishComponents "proj" ["proj-api", "web", "proj-api"] ↔
        ∃ img ∈ ["proj-api", "web", "proj-api"], s = stripImageName "proj" img) ∧
    (checkComponentsExist (selectPublishComponents "proj" ["proj-api", "web", "proj-api"])
        ["api", "web"] = Except.ok ()
      ↔ ∀ s ∈ selectPublishComponents "proj" ["proj-api", "web", "proj-api"],
          s ∈ ["api", "web"]) :=
  publishSelection_spec "ci" "proj" ["proj-api", "web", "proj-api"] ["api", "web"]
    (by decide)

lemma dispatchLoop_first_failure (ok : String → Bool) :
    ∀ (l : List String) (i : Nat) (hi : i < l.length),
      (∀ c ∈ l.take i, ok c = true) → ok (l.get ⟨i, hi⟩) = false →
      dispatchLoop ok l = (l.take (i + 1), l.take i, some (l.get ⟨i, hi⟩)) := by
  intro l
  induction l with
  | nil =>
    intro i hi _ _
    exact absurd hi (by simp)
  | cons c rest ih =>
    intro i hi hpre hfail
    cases i with
    | zero =>
      have h0 : ok c = false := hfail
      unfold dispatchLoop
      rw [h0]
      rfl
    | succ j =>
      have hok : ok c = true := hpre c (by simp)
      have hj : j < rest.length := by simpa using hi
      have hpre' : ∀ x ∈ rest.take j, ok x = true := by
        intro x hx
        exact hpre x (by simp [hx])
      have hfail' : ok (rest.get ⟨j, hj⟩) = false := hfail
      unfold dispatchLoop
      rw [hok, ih j hj hpre' hfail']
      rfl

/-- C7: dispatch is sequential in the computed order; when the first failing
component sits at position `i` of the dispatch list, the run dispatched
exactly the first `i + 1` components, reported the first `i` as built,
reported position `i` as the failure, and never dispatched any later
component; earlier successes are not rolled back (they remain in the built
list). -/
theorem runBuild_first_failure (comps : List String) (configOf : String → ComponentConfig)
    (ok : String → Bool) (order : List String) (i : Nat)
    (hval : findCycle (buildGraph comps configOf) = none)
    (htopo : topologicalSort (buildGraph comps configOf) = some order)
    (hi : i < (order.filter (fun c => decide (c ∈ comps))).length)
    (hpre : ∀ c ∈ (order.filter (fun c => decide (c ∈ comps))).take i, ok c = true)
    (hfail : ok ((order.filter (fun c => decide (c ∈ comps))).get ⟨i, hi⟩) = false) :
    runBuild comps configOf ok =
      ⟨(order.filter (fun c => decide (c ∈ comps))).take (i + 1),
       (order.filter (fun c => decide (c ∈ comps))).take i,
       Except.error (BuildError.dispatchFailure
         ((order.filter (fun c => decide (c ∈ comps))).get ⟨i, hi⟩))⟩ := by
  have hd := dispatchLoop_first_failure ok
    (List.filter (fun c => decide (c ∈ comps)) order) i hi hpre hfail
  simp only [runBuild, hval, htopo, hd]

/-- C7 (witness): four independent components with the second build failing. -/
theorem runBuild_first_failure_witness :
    runBuild ["a", "b", "c", "d"] (fun _ => ⟨Val.vmap []⟩) (fun c => !(c == "b")) =
      ⟨(["a", "b", "c", "d"].filter
          (fun c => decide (c ∈ ["a", "b", "c", "d"]))).take 2,
       (["a", "b", "c", "d"].filter
          (fun c => decide (c ∈ ["a", "b", "c", "d"]))).take 1,
       Except.error (BuildError.dispatchFailure
         ((["a", "b", "c", "d"].filter
            (fun c => decide (c ∈ ["a", "b", "c", "d"]))).get
              ⟨1, by decide⟩))⟩ :=
  runBuild_first_failure ["a", "b", "c", "d"] (fun _ => ⟨Val.vmap []⟩)
    (fun c => !(c == "b")) ["a", "b", "c", "d"] 1 rfl rfl (by decide)
    (by decide) (by decide)

lemma isEdgePath_snoc {g : Graph} {a b : String} {p : List CEdge} {e : CEdge}
    (h : IsEdgePath g a p b) (he : e ∈ g.edges) (hb : e.1 = b) :
    IsEdgePath g a (p ++ [e]) e.2 := by
  induction p generalizing a with
  | nil =>
    cases h
    exact ⟨hb, he, rfl⟩
  | cons e' p ih =>
    obtain ⟨h1, h2, h3⟩ := h
    exact ⟨h1, h2, ih h3⟩

lemma isEdgePath_transGen {g : Graph} {a b : String} {p : List CEdge}
    (h : IsEdgePath g a p b) (hne : p ≠ []) :
    Relation.TransGen (EdgeRel g) a b := by
  induction p generalizing a with
  | nil => exact absurd rfl hne
  | cons e p ih =>
    obtain ⟨h1, h2, h3⟩ := h
    cases p with
    | nil =>
      cases h3
      exact Relation.TransGen.single (h1 ▸ h2)
    | cons e' p' =>
      exact Relation.TransGen.head (h1 ▸ h2) (ih h3 (by simp))

/-- Soundness data carried by a path map with start node `n`: every entry
records a nonempty edge path from `n` to its key. -/
def PMSound (g : Graph) (n : String) (S : PathMap) : Prop :=
  ∀ q ∈ S, q.2 ≠ [] ∧ IsEdgePath g n q.2 q.1

lemma addEdgeStep_append (S : PathMap) (e : CEdge) :
    ∃ t, addEdgeStep S e = S ++ t := by
  unfold addEdgeStep
  cases hf : S.find? (fun q => decide (q.1 = e.1)) with
  | none => exact ⟨[], by simp⟩
  | some q =>
    by_cases hmem : e.2 ∈ pmKeys S
    · exact ⟨[], by simp [hmem]⟩
    · exact ⟨[(e.2, q.2 ++ [e])], by simp [hmem]⟩

lemma stepClosure_append (g : Graph) (S : PathMap) :
    ∃ t, stepClosure g S = S ++ t := by
  unfold stepClosure
  generalize g.edges = l
  induction l generalizing S with
  | nil => exact ⟨[], by simp⟩
  | cons e l ih =>
    rw [List.foldl_cons]
    obtain ⟨t1, ht1⟩ := addEdgeStep_append S e
    obtain ⟨t2, ht2⟩ := ih (addEdgeStep S e)
    exact ⟨t1 ++ t2, by rw [ht2, ht1, List.append_assoc]⟩

lemma pmKeys_append (S t : PathMap) : pmKeys (S ++ t) = pmKeys S ++ pmKeys t := by
  simp [pmKeys]

lemma mem_pmKeys_stepClosure {g : Graph} {S : PathMap} {a : String}
    (h : a ∈ pmKeys S) : a ∈ pmKeys (stepClosure g S) := by
  obtain ⟨t, ht⟩ := stepClosure_append g S
  rw [ht, pmKeys_append]
  exact List.mem_append_left _ h

lemma mem_pmKeys_saturate {g : Graph} {S : PathMap} {a : String}
    (h : a ∈ pmKeys S) : a ∈ pmKeys (saturate g S) := by
  unfold saturate
  generalize g.nodes.length + 1 = k
  induction k generalizing S with
  | zero => exact h
  | succ k ih =>
    rw [Function.iterate_succ_apply]
    exact ih (mem_pmKeys_stepClosure h)

lemma pmSound_addEdgeStep {g : Graph} {n : String} {S : PathMap} {e : CEdge}
    (hs : PMSound g n S) (he : e ∈ g.edges) : PMSound g n (addEdgeStep S e) := by
  unfold addEdgeStep
  cases hf : S.find? (fun q => decide (q.1 = e.1)) with
  | none => exact hs
  | some q =>
    by_cases hmem : e.2 ∈ pmKeys S
    · simp only [hmem, if_true]
      exact hs
    · simp only [hmem, if_false]
      intro r hr
      rcases List.mem_append.mp hr with hr | hr
      · exact hs r hr
      · have hq := hs q (List.mem_of_find?_eq_some hf)
        have hq1 : q.1 = e.1 := by simpa using List.find?_some hf
        rcases List.mem_singleton.mp hr with rfl
        refine ⟨by simp, ?_⟩
        exact isEdgePath_snoc hq.2 he hq1.symm

lemma pmSound_foldl {g : Graph} {n : String} {l : List CEdge}
    (hl : ∀ e ∈ l, e ∈ g.edges) :
    ∀ {S : PathMap}, PMSound g n S → PMSound g n (l.foldl addEdgeStep S) := by
  induction l with
  | nil => intro S hs; exact hs
  | cons e l ih =>
    intro S hs
    rw [List.foldl_cons]
    exact ih (fun x hx => hl x (List.mem_cons_of_mem _ hx))
      (pmSound_addEdgeStep hs (hl e (List.mem_cons_self _ _)))

lemma pmSound_stepClosure {g : Graph} {n : String} {S : PathMap}
    (hs : PMSound g n S) : PMSound g n (stepClosure g S) :=
  pmSound_foldl (fun _ he => he) hs

lemma pmSound_saturate {g : Graph} {n : String} {S : PathMap}
    (hs : PMSound g n S) : PMSound g n (saturate g S) := by
  unfold saturate
  generalize g.nodes.length + 1 = k
  induction k generalizing S with
  | zero => exact hs
  | succ k ih =>
    rw [Function.iterate_succ_apply]
    exact ih (pmSound_stepClosure hs)

/-- Structural invariant of a path map over graph `g`: keys are
duplicate-free graph nodes. -/
def PMKeysOk (g : Graph) (S : PathMap) : Prop :=
  (pmKeys S).Nodup ∧ ∀ q ∈ S, q.1 ∈ g.nodes

lemma pmKeysOk_addEdgeStep {g : Graph} {S : PathMap} {e : CEdge}
    (hk : PMKeysOk g S) (he : e ∈ g.edges) (wf : GraphWF g) :
    PMKeysOk g (addEdgeStep S e) := by
  unfold addEdgeStep
  cases hf : S.find? (fun q => decide (q.1 = e.1)) with
  | none => exact hk
  | some q =>
    by_cases hmem : e.2 ∈ pmKeys S
    · simp only [hmem, if_true]
      exact hk
    · simp only [hmem, if_false]
      constructor
      · rw [pmKeys_append]
        simp only [pmKeys, List.map_cons, List.map_nil]
        rw [List.nodup_append]
        refine ⟨hk.1, List.nodup_singleton _, ?_⟩
        intro x hx hx2
        rcases List.mem_singleton.mp hx2 with rfl
        exact hmem hx
      · intro r hr
        rcases List.mem_append.mp hr with hr | hr
        · exact hk.2 r hr
        · rcases List.mem_singleton.mp hr with rfl
          exact wf.edgeSnd e he

lemma pmKeysOk_foldl {g : Graph} {l : List CEdge} (wf : GraphWF g)
    (hl : ∀ e ∈ l, e ∈ g.edges) :
    ∀ {S : PathMap}, PMKeysOk g S → PMKeysOk g (l.foldl addEdgeStep S) := by
  induction l with
  | nil => intro S hk; exact hk
  | cons e l ih =>
    intro S hk
    rw [List.foldl_cons]
    exact ih (fun x hx => hl x (List.mem_cons_of_mem _ hx))
      (pmKeysOk_addEdgeStep hk (hl e (List.mem_cons_self _ _)) wf)

lemma pmKeysOk_stepClosure {g : Graph} {S : PathMap} (wf : GraphWF g)
    (hk : PMKeysOk g S) : PMKeysOk g (stepClosure g S) :=
  pmKeysOk_foldl wf (fun _ he => he) hk

lemma pmKeysOk_iterate {g : Graph} {S : PathMap} (wf : GraphWF g)
    (hk : PMKeysOk g S) (k : Nat) : PMKeysOk g ((stepClosure g)^[k] S) := by
  induction k with
  | zero => exact hk
  | succ k ih =>
    rw [Function.iterate_succ_apply']
    exact pmKeysOk_stepClosure wf ih

lemma pmLength_le {g : Graph} {S : PathMap} (wf : GraphWF g) (hk : PMKeysOk g S) :
    S.length ≤ g.nodes.length := by
  have h1 : (pmKeys S).length = S.length := List.length_map _ _
  calc S.length = (pmKeys S).length := h1.symm
    _ = (pmKeys S).toFinset.card := (List.toFinset_card_of_nodup hk.1).symm
    _ ≤ g.nodes.toFinset.card := Finset.card_le_card (by
        intro x hx
        rw [List.mem_toFinset] at hx ⊢
        obtain ⟨q, hq, rfl⟩ := List.mem_map.mp hx
        exact hk.2 q hq)
    _ ≤ g.nodes.length := List.toFinset_card_le _

lemma stepClosure_grow {g : Graph} {S : PathMap} (h : stepClosure g S ≠ S) :
    S.length < (stepClosure g S).length := by
  obtain ⟨t, ht⟩ := stepClosure_append g S
  cases t with
  | nil => exact absurd (by simpa using ht) h
  | cons x t =>
    rw [ht]
    simp

lemma exists_fix_le {f : PathMap → PathMap} {S : PathMap} {N : Nat}
    (hgrow : ∀ T, f T ≠ T → T.length < (f T).length)
    (hbound : ∀ k, (f^[k] S).length ≤ N) :
    ∃ k, k ≤ N ∧ f (f^[k] S) = f^[k] S := by
  by_contra h
  push_neg at h
  have hmono : ∀ k, k ≤ N + 1 → k ≤ (f^[k] S).length := by
    intro k
    induction k with
    | zero => intro _; simp
    | succ j ih =>
      intro hk
      have hne : f (f^[j] S) ≠ f^[j] S := h j (by omega)
      have hg := hgrow _ hne
      have hj := ih (by omega)
      rw [Function.iterate_succ_apply']
      omega
  have h1 := hmono (N + 1) (le_refl _)
  have h2 := hbound (N + 1)
  omega

lemma saturate_fixed {g : Graph} {S : PathMap} (wf : GraphWF g)
    (hk : PMKeysOk g S) : stepClosure g (saturate g S) = saturate g S := by
  obtain ⟨k, hkN, hfix⟩ := exists_fix_le (f := stepClosure g) (S := S) (N := g.nodes.length)
    (fun T hT => stepClosure_grow hT)
    (fun k => pmLength_le wf (pmKeysOk_iterate wf hk k))
  unfold saturate
  have hsplit : g.nodes.length + 1 = (g.nodes.length + 1 - k) + k := by omega
  rw [hsplit, Function.iterate_add_apply, Function.iterate_fixed hfix]
  exact hfix

lemma mem_pmKeys_iff {S : PathMap} {a : String} :
    a ∈ pmKeys S ↔ ∃ q ∈ S, q.1 = a := by
  simp [pmKeys, List.mem_map, eq_comm]

lemma mem_pmKeys_addEdgeStep_self {S : PathMap} {e : CEdge}
    (h : e.1 ∈ pmKeys S) : e.2 ∈ pmKeys (addEdgeStep S e) := by
  have hsome : (S.find? (fun q => decide (q.1 = e.1))).isSome := by
    rw [List.find?_isSome]
    obtain ⟨q, hq, hq1⟩ := mem_pmKeys_iff.mp h
    exact ⟨q, hq, by simp [hq1]⟩
  unfold addEdgeStep
  cases hf : S.find? (fun q => decide (q.1 = e.1)) with
  | none => rw [hf] at hsome; cases hsome
  | some q =>
    by_cases hmem : e.2 ∈ pmKeys S
    · simpa [hmem] using hmem
    · simp only [hmem, if_false]
      rw [pmKeys_append]
      simp [pmKeys]

lemma mem_pmKeys_addEdgeStep_mono {S : PathMap} {e : CEdge} {a : String}
    (h : a ∈ pmKeys S) : a ∈ pmKeys (addEdgeStep S e) := by
  obtain ⟨t, ht⟩ := addEdgeStep_append S e
  rw [ht, pmKeys_append]
  exact List.mem_append_left _ h

lemma mem_pmKeys_foldl_mono {l : List CEdge} :
    ∀ {S : PathMap} {a : String}, a ∈ pmKeys S → a ∈ pmKeys (l.foldl addEdgeStep S) := by
  induction l with
  | nil => intro S a h; exact h
  | cons e l ih =>
    intro S a h
    rw [List.foldl_cons]
    exact ih (mem_pmKeys_addEdgeStep_mono h)

lemma foldl_closed {l : List CEdge} {e : CEdge} :
    ∀ {S : PathMap}, e ∈ l → e.1 ∈ pmKeys S → e.2 ∈ pmKeys (l.foldl addEdgeStep S) := by
  induction l with
  | nil => intro S h; cases h
  | cons e' l ih =>
    intro S hmem h1
    rw [List.foldl_cons]
    rcases List.mem_cons.mp hmem with rfl | hmem
    · exact mem_pmKeys_foldl_mono (mem_pmKeys_addEdgeStep_self h1)
    · exact ih hmem (mem_pmKeys_addEdgeStep_mono h1)

lemma stepClosure_closed {g : Graph} {S : PathMap} {e : CEdge}
    (he : e ∈ g.edges) (h1 : e.1 ∈ pmKeys S) : e.2 ∈ pmKeys (stepClosure g S) :=
  foldl_closed he h1

/-- Seeds of `reachPaths`: the direct successors, each with its edge. -/
lemma pmSound_seeds {g : Graph} {n : String} : PMSound g n (seedsFrom g n) := by
  intro q hq
  unfold seedsFrom at hq
  obtain ⟨e, he, rfl⟩ := List.mem_map.mp hq
  have hmem : e ∈ g.edges := List.mem_of_mem_filter he
  have h1 : e.1 = n := by simpa using List.of_mem_filter he
  exact ⟨by simp, h1, hmem, rfl⟩

lemma pmKeysOk_seeds {g : Graph} {n : String} (wf : GraphWF g) :
    PMKeysOk g (seedsFrom g n) := by
  constructor
  · unfold seedsFrom pmKeys
    rw [List.map_map]
    have : (Prod.fst ∘ fun e : CEdge => (e.2, [e])) = Prod.snd := rfl
    rw [this]
    refine List.Nodup.map_on ?_ (List.Nodup.filter _ wf.edgesNodup)
    intro x hx y hy hxy
    have hx1 : x.1 = n := by simpa using List.of_mem_filter hx
    have hy1 : y.1 = n := by simpa using List.of_mem_filter hy
    exact Prod.ext (hx1.trans hy1.symm) hxy
  · intro q hq
    unfold seedsFrom at hq
    obtain ⟨e, he, rfl⟩ := List.mem_map.mp hq
    exact wf.edgeSnd e (List.mem_of_mem_filter he)

lemma mem_pmKeys_seeds {g : Graph} {n b : String} (he : (n, b) ∈ g.edges) :
    b ∈ pmKeys (seedsFrom g n) := by
  unfold seedsFrom pmKeys
  rw [List.map_map]
  refine List.mem_map.mpr ⟨(n, b), ?_, rfl⟩
  exact List.mem_filter.mpr ⟨he, by simp⟩

lemma transGen_mem_reachPaths {g : Graph} {n b : String} (wf : GraphWF g)
    (h : Relation.TransGen (EdgeRel g) n b) :
    b ∈ pmKeys (reachPaths g n) := by
  unfold reachPaths
  induction h with
  | single he => exact mem_pmKeys_saturate (mem_pmKeys_seeds he)
  | tail hab hbc ih =>
    have hfix := saturate_fixed (S := seedsFrom g n) wf (pmKeysOk_seeds wf)
    have := stepClosure_closed (S := saturate g (seedsFrom g n)) hbc ih
    rwa [hfix] at this

lemma reachPaths_sound {g : Graph} {n b : String}
    (h : b ∈ pmKeys (reachPaths g n)) :
    Relation.TransGen (EdgeRel g) n b := by
  obtain ⟨q, hq, hq1⟩ := mem_pmKeys_iff.mp h
  have hs := pmSound_saturate (S := seedsFrom g n) (pmSound_seeds (g := g) (n := n)) q hq
  exact hq1 ▸ isEdgePath_transGen hs.2 hs.1

lemma reaches_iff {g : Graph} {n b : String} (wf : GraphWF g) :
    b ∈ pmKeys (reachPaths g n) ↔ Relation.TransGen (EdgeRel g) n b :=
  ⟨reachPaths_sound, transGen_mem_reachPaths wf⟩

lemma findCycle_sound {g : Graph} {cyc : List CEdge}
    (h : findCycle g = some cyc) :
    cyc ≠ [] ∧ ∃ n, IsEdgePath g n cyc n := by
  unfold findCycle at h
  obtain ⟨n, hn, hfn⟩ := List.exists_of_findSome?_eq_some h
  unfold findCycleFrom at hfn
  obtain ⟨q, hq, hmap⟩ := Option.map_eq_some'.mp hfn
  have hq1 : q.1 = n := by simpa using List.find?_some hq
  have hqm := List.mem_of_find?_eq_some hq
  have hs := pmSound_saturate (S := seedsFrom g n) (pmSound_seeds (g := g) (n := n)) q hqm
  subst hmap
  exact ⟨hs.1, n, hq1 ▸ hs.2⟩

lemma transGen_fst_mem {g : Graph} {a b : String} (wf : GraphWF g)
    (h : Relation.TransGen (EdgeRel g) a b) : a ∈ g.nodes := by
  induction h with
  | single he => exact wf.edgeFst _ he
  | tail _ _ ih => exact ih

lemma transGen_snd_mem {g : Graph} {a b : String} (wf : GraphWF g)
    (h : Relation.TransGen (EdgeRel g) a b) : b ∈ g.nodes := by
  induction h with
  | single he => exact wf.edgeSnd _ he
  | tail _ he _ => exact wf.edgeSnd _ he

lemma findCycle_complete {g : Graph} {m : String} (wf : GraphWF g)
    (h : Relation.TransGen (EdgeRel g) m m) : findCycle g ≠ none := by
  intro hnone
  unfold findCycle at hnone
  rw [List.findSome?_eq_none] at hnone
  have hm : m ∈ g.nodes := transGen_fst_mem wf h
  have hmem : m ∈ pmKeys (reachPaths g m) := transGen_mem_reachPaths wf h
  have hfn := hnone m hm
  unfold findCycleFrom at hfn
  rw [Option.map_eq_none'] at hfn
  rw [List.find?_eq_none] at hfn
  obtain ⟨q, hq, hq1⟩ := mem_pmKeys_iff.mp hmem
  exact hfn q hq (by simp [hq1])

lemma acyclic_of_findCycle_none {g : Graph} (wf : GraphWF g)
    (h : findCycle g = none) : Acyclic g :=
  fun _ hn => findCycle_complete wf hn h

lemma kahnAux_perm (edges : List CEdge) :
    ∀ (fuel : Nat) (remaining order : List String),
      kahnAux edges fuel remaining = some order → order.Perm remaining := by
  intro fuel
  induction fuel with
  | zero =>
    intro remaining order h
    by_cases hemp : remaining.isEmpty
    · rw [List.isEmpty_iff.mp hemp] at h ⊢
      simp only [kahnAux, List.isEmpty_nil, if_true, Option.some_inj] at h
      rw [← h]
    · simp [kahnAux, hemp] at h
  | succ fuel ih =>
    intro remaining order h
    by_cases hemp : remaining.isEmpty
    · rw [List.isEmpty_iff.mp hemp] at h ⊢
      simp only [kahnAux, List.isEmpty_nil, if_true, Option.some_inj] at h
      rw [← h]
    · rw [show kahnAux edges (fuel + 1) remaining
          = (match remaining.find? (fun n => decide (∀ e ∈ edges, e.2 = n → e.1 ∉ remaining)) with
             | none => none
             | some n => (kahnAux edges fuel (remaining.erase n)).map (fun order => n :: order))
          from by simp [kahnAux, hemp]] at h
      cases hfind : remaining.find?
          (fun n => decide (∀ e ∈ edges, e.2 = n → e.1 ∉ remaining)) with
      | none => rw [hfind] at h; cases h
      | some m =>
        rw [hfind] at h
        obtain ⟨rest, hrest, horder⟩ := Option.map_eq_some'.mp h
        have hm : m ∈ remaining := List.mem_of_find?_eq_some hfind
        have hperm := ih (remaining.erase m) rest hrest
        rw [← horder]
        exact (hperm.cons m).trans (List.perm_cons_erase hm).symm

lemma exists_source {g : Graph} (wf : GraphWF g) (hacyc : Acyclic g)
    {remaining : List String} (hsub : ∀ x ∈ remaining, x ∈ g.nodes)
    (hne : remaining ≠ []) :
    ∃ n ∈ remaining, ∀ e ∈ g.edges, e.2 = n → e.1 ∉ remaining := by
  by_contra hcon
  push_neg at hcon
  have hstep : ∀ x : {x // x ∈ remaining},
      ∃ y : {x // x ∈ remaining}, (y.1, x.1) ∈ g.edges := by
    rintro ⟨x, hx⟩
    obtain ⟨e, he, h2, h1⟩ := hcon x hx
    refine ⟨⟨e.1, h1⟩, ?_⟩
    have : (e.1, x) = e := Prod.ext rfl h2.symm
    rw [this]
    exact he
  classical
  choose P hP using hstep
  have hx0 : remaining.head hne ∈ remaining := List.head_mem hne
  let seq : Nat → {x // x ∈ remaining} := fun k => P^[k] ⟨remaining.head hne, hx0⟩
  have hseqstep : ∀ k, ((seq (k + 1)).1, (seq k).1) ∈ g.edges := by
    intro k
    have hs : seq (k + 1) = P (seq k) := Function.iterate_succ_apply' P k _
    rw [hs]
    exact hP (seq k)
  have hchain : ∀ d k, Relation.TransGen (EdgeRel g) (seq (k + d + 1)).1 (seq k).1 := by
    intro d
    induction d with
    | zero => intro k; exact Relation.TransGen.single (hseqstep k)
    | succ d ihd =>
      intro k
      exact Relation.TransGen.head (hseqstep (k + d + 1)) (ihd k)
  have hlt : ∀ a b : Nat, a < b → Relation.TransGen (EdgeRel g) (seq b).1 (seq a).1 := by
    intro a b hab
    have hb : b = a + (b - a - 1) + 1 := by omega
    rw [hb]
    exact hchain (b - a - 1) a
  have hmaps : ∀ i : Fin (remaining.length + 1),
      i ∈ (Finset.univ : Finset (Fin (remaining.length + 1))) →
      (seq i.1).1 ∈ remaining.toFinset := by
    intro i _
    exact List.mem_toFinset.mpr (seq i.1).2
  have hcard : remaining.toFinset.card
      < (Finset.univ : Finset (Fin (remaining.length + 1))).card := by
    have h1 := List.toFinset_card_le remaining
    rw [Finset.card_univ, Fintype.card_fin]
    omega
  obtain ⟨i, _, j, _, hij, heq⟩ :=
    Finset.exists_ne_map_eq_of_card_lt_of_maps_to hcard hmaps
  have hij' : i.1 ≠ j.1 := fun h => hij (Fin.ext h)
  rcases Nat.lt_or_ge i.1 j.1 with h | h
  · have ht := hlt i.1 j.1 h
    rw [heq] at ht
    exact hacyc _ ht
  · have h' : j.1 < i.1 := by omega
    have ht := hlt j.1 i.1 h'
    rw [← heq] at ht
    exact hacyc _ ht

lemma kahnAux_isSome {g : Graph} (wf : GraphWF g) (hacyc : Acyclic g) :
    ∀ (fuel : Nat) (remaining : List String),
      (∀ x ∈ remaining, x ∈ g.nodes) → remaining.length ≤ fuel →
      ∃ order, kahnAux g.edges fuel remaining = some order := by
  intro fuel
  induction fuel with
  | zero =>
    intro remaining hsub hlen
    have : remaining = [] := List.length_eq_zero.mp (Nat.le_zero.mp hlen)
    exact ⟨[], by simp [this, kahnAux]⟩
  | succ fuel ih =>
    intro remaining hsub hlen
    by_cases hemp : remaining.isEmpty
    · exact ⟨[], by simp [kahnAux, hemp]⟩
    · have hne : remaining ≠ [] := fun h => hemp (by simp [h])
      obtain ⟨n, hn, hnsrc⟩ := exists_source wf hacyc hsub hne
      have hfind : (remaining.find?
          (fun n => decide (∀ e ∈ g.edges, e.2 = n → e.1 ∉ remaining))).isSome := by
        rw [List.find?_isSome]
        exact ⟨n, hn, by simpa using hnsrc⟩
      obtain ⟨m, hm⟩ := Option.isSome_iff_exists.mp hfind
      have hmmem : m ∈ remaining := List.mem_of_find?_eq_some hm
      obtain ⟨rest, hrest⟩ := ih (remaining.erase m)
        (fun x hx => hsub x (List.erase_subset _ _ hx))
        (by
          rw [List.length_erase_of_mem hmmem]
          have : remaining.length ≠ 0 := fun h => hne (List.length_eq_zero.mp h)
          omega)
      exact ⟨m :: rest, by simp [kahnAux, hemp, hm, hrest]⟩

lemma kahnAux_edge_respect (edges : List CEdge) :
    ∀ (fuel : Nat) (remaining order : List String),
      kahnAux edges fuel remaining = some order →
      ∀ a b, (a, b) ∈ edges → a ∈ remaining → b ∈ remaining →
      [a, b].Sublist order := by
  intro fuel
  induction fuel with
  | zero =>
    intro remaining order h a b hab ha hb
    by_cases hemp : remaining.isEmpty
    · rw [List.isEmpty_iff.mp hemp] at ha
      cases ha
    · simp [kahnAux, hemp] at h
  | succ fuel ih =>
    intro remaining order h a b hab ha hb
    by_cases hemp : remaining.isEmpty
    · rw [List.isEmpty_iff.mp hemp] at ha
      cases ha
    · rw [show kahnAux edges (fuel + 1) remaining
          = (match remaining.find? (fun n => decide (∀ e ∈ edges, e.2 = n → e.1 ∉ remaining)) with
             | none => none
             | some n => (kahnAux edges fuel (remaining.erase n)).map (fun order => n :: order))
          from by simp [kahnAux, hemp]] at h
      cases hfind : remaining.find?
          (fun n => decide (∀ e ∈ edges, e.2 = n → e.1 ∉ remaining)) with
      | none => rw [hfind] at h; cases h
      | some m =>
        rw [hfind] at h
        obtain ⟨rest, hrest, horder⟩ := Option.map_eq_some'.mp h
        subst horder
        have hmprop : ∀ e ∈ edges, e.2 = m → e.1 ∉ remaining := by
          simpa using List.find?_some hfind
        have hbm : b ≠ m := by
          rintro rfl
          exact hmprop (a, b) hab rfl ha
        by_cases ham : a = m
        · subst ham
          have hbrest : b ∈ rest := by
            have hperm := kahnAux_perm edges fuel (remaining.erase a) rest hrest
            rw [hperm.mem_iff]
            exact (List.mem_erase_of_ne hbm).mpr hb
          exact List.Sublist.cons₂ a (List.singleton_sublist.mpr hbrest)
        · have ha' : a ∈ remaining.erase m := (List.mem_erase_of_ne ham).mpr ha
          have hb' : b ∈ remaining.erase m := (List.mem_erase_of_ne hbm).mpr hb
          exact List.Sublist.cons m (ih _ _ hrest a b hab ha' hb')

lemma topologicalSort_isSome {g : Graph} (wf : GraphWF g) (hacyc : Acyclic g) :
    ∃ order, topologicalSort g = some order :=
  kahnAux_isSome wf hacyc g.nodes.length g.nodes (fun _ hx => hx) (le_refl _)

lemma topologicalSort_perm {g : Graph} {order : List String}
    (h : topologicalSort g = some order) : order.Perm g.nodes :=
  kahnAux_perm g.edges g.nodes.length g.nodes order h

lemma topologicalSort_respects {g : Graph} {order : List String} {a b : String}
    (h : topologicalSort g = some order) (hab : (a, b) ∈ g.edges)
    (ha : a ∈ g.nodes) (hb : b ∈ g.nodes) : [a, b].Sublist order :=
  kahnAux_edge_respect g.edges g.nodes.length g.nodes order h a b hab ha hb

lemma mem_nodesFoldl {l : List CEdge} :
    ∀ {acc : List String} {x : String},
      x ∈ l.foldl (fun ns e => insertUnique (insertUnique ns e.1) e.2) acc ↔
        x ∈ acc ∨ ∃ e ∈ l, x = e.1 ∨ x = e.2 := by
  induction l with
  | nil => simp
  | cons e l ih =>
    intro acc x
    rw [List.foldl_cons, ih, mem_insertUnique, mem_insertUnique]
    constructor
    · rintro (((h | rfl) | rfl) | ⟨e', he', h⟩)
      · exact Or.inl h
      · exact Or.inr ⟨e, List.mem_cons_self _ _, Or.inl rfl⟩
      · exact Or.inr ⟨e, List.mem_cons_self _ _, Or.inr rfl⟩
      · exact Or.inr ⟨e', List.mem_cons_of_mem _ he', h⟩
    · rintro (h | ⟨e', he', h⟩)
      · exact Or.inl (Or.inl (Or.inl h))
      · rcases List.mem_cons.mp he' with rfl | he'
        · rcases h with rfl | rfl
          · exact Or.inl (Or.inl (Or.inr rfl))
          · exact Or.inl (Or.inr rfl)
        · exact Or.inr ⟨e', he', h⟩

lemma nodesFoldl_nodup {l : List CEdge} :
    ∀ {acc : List String}, acc.Nodup →
      (l.foldl (fun ns e => insertUnique (insertUnique ns e.1) e.2) acc).Nodup := by
  induction l with
  | nil => intro acc h; exact h
  | cons e l ih =>
    intro acc h
    rw [List.foldl_cons]
    exact ih (insertUnique_nodup (insertUnique_nodup h _) _)

lemma buildGraph_wf (comps : List String) (configOf : String → ComponentConfig) :
    GraphWF (buildGraph comps configOf) := by
  refine ⟨?_, ?_, ?_, ?_⟩
  · exact nodesFoldl_nodup (dedupFirst_nodup _)
  · exact dedupFirst_nodup _
  · intro e he
    exact mem_nodesFoldl.mpr (Or.inr ⟨e, mem_dedupFirst.mp he, Or.inl rfl⟩)
  · intro e he
    exact mem_nodesFoldl.mpr (Or.inr ⟨e, mem_dedupFirst.mp he, Or.inr rfl⟩)

lemma mem_buildGraph_edges {comps : List String} {configOf : String → ComponentConfig}
    {c d : String} (hc : c ∈ comps) (hd : d ∈ (configOf c).depNames) :
    (d, c) ∈ (buildGraph comps configOf).edges := by
  simp only [buildGraph]
  rw [mem_dedupFirst]
  exact List.mem_flatMap.mpr ⟨c, hc, List.mem_map.mpr ⟨d, hd, rfl⟩⟩

/-- C1: for every acyclic set of dependency declarations (the cycle check of
`validate_component_dependencies` passes), `build_components`' dispatch order
— the topological order of the dependency graph filtered to the requested
components — places every declared dependency strictly before each of its
dependents among the components dispatched in the same invocation. -/
theorem buildOrder_respects_dependencies (comps : List String)
    (configOf : String → ComponentConfig)
    (hacyc : findCycle (buildGraph comps configOf) = none)
    (c d : String) (hc : c ∈ comps) (hd : d ∈ (configOf c).depNames) (hdc : d ∈ comps) :
    ∃ order, topologicalSort (buildGraph comps configOf) = some order ∧
      [d, c].Sublist (order.filter (fun x => decide (x ∈ comps))) := by
  have wf := buildGraph_wf comps configOf
  have hac := acyclic_of_findCycle_none wf hacyc
  obtain ⟨order, horder⟩ := topologicalSort_isSome wf hac
  refine ⟨order, horder, ?_⟩
  have hedge : (d, c) ∈ (buildGraph comps configOf).edges := mem_buildGraph_edges hc hd
  have hsub : [d, c].Sublist order :=
    topologicalSort_respects horder hedge (wf.edgeFst _ hedge) (wf.edgeSnd _ hedge)
  have hfilter : [d, c].filter (fun x => decide (x ∈ comps)) = [d, c] := by
    simp [hdc, hc]
  have hsf := List.Sublist.filter (fun x => decide (x ∈ comps)) hsub
  rwa [hfilter] at hsf

/-- The dependency declarations with `y` depending on `x`. -/
def cfgOfPair : String → ComponentConfig := fun c =>
  if c = "y" then ⟨Val.vmap [("dependencies", Val.vlist [Val.vstr "x"])]⟩
  else ⟨Val.vmap []⟩

/-- C1 (witness): the two-component chain. -/
theorem buildOrder_respects_dependencies_witness :
    ∃ order, topologicalSort (buildGraph ["x", "y"] cfgOfPair) = some order ∧
      [ "x", "y"].Sublist (order.filter (fun z => decide (z ∈ ["x", "y"]))) :=
  buildOrder_respects_dependencies ["x", "y"] cfgOfPair rfl "y" "x"
    (by decide) (by decide) (by decide)

/-- C2: whenever the declared dependencies contain a cycle, validation fails
with an error carrying a nonempty sequence of graph edges that forms a
genuine cycle, the failure arrives after full graph construction (the graph
is the one built from all declarations), and the run dispatches no component
at all — no partial builds. -/
theorem validate_fails_on_cycle (comps : List String)
    (configOf : String → ComponentConfig) (ok : String → Bool) (m : String)
    (hcyc : Relation.TransGen (EdgeRel (buildGraph comps configOf)) m m) :
    ∃ cyc, validateComponentDependencies comps configOf = Except.error cyc ∧
      runBuild comps configOf ok =
        ⟨[], [], Except.error (BuildError.cycle cyc)⟩ ∧
      cyc ≠ [] ∧ ∃ n, IsEdgePath (buildGraph comps configOf) n cyc n := by
  have wf := buildGraph_wf comps configOf
  have hne := findCycle_complete wf hcyc
  obtain ⟨cyc, hfc⟩ := Option.ne_none_iff_exists'.mp hne
  obtain ⟨hcne, n, hpath⟩ := findCycle_sound hfc
  exact ⟨cyc, by simp [validateComponentDependencies, hfc],
    by simp [runBuild, hfc], hcne, n, hpath⟩

/-- The dependency declarations with `a` and `b` depending on each other. -/
def cfgOfCycle : String → ComponentConfig := fun c =>
  if c = "a" then ⟨Val.vmap [("dependencies", Val.vlist [Val.vstr "b"])]⟩
  else if c = "b" then ⟨Val.vmap [("dependencies", Val.vlist [Val.vstr "a"])]⟩
  else ⟨Val.vmap []⟩

/-- C2 (witness): a two-cycle between components a and b. -/
theorem validate_fails_on_cycle_witness :
    ∃ cyc, validateComponentDependencies ["a", "b"] cfgOfCycle = Except.error cyc ∧
      runBuild ["a", "b"] cfgOfCycle (fun _ => true) =
        ⟨[], [], Except.error (BuildError.cycle cyc)⟩ ∧
      cyc ≠ [] ∧ ∃ n, IsEdgePath (buildGraph ["a", "b"] cfgOfCycle) n cyc n :=
  validate_fails_on_cycle ["a", "b"] cfgOfCycle (fun _ => true) "a"
    (Relation.TransGen.head (b := "b") (by decide)
      (Relation.TransGen.single (by decide)))

lemma mem_subgraph_nodes {g : Graph} {keep : List String} {n : String} :
    n ∈ (g.subgraph keep).nodes ↔ n ∈ g.nodes ∧ n ∈ keep := by
  simp [Graph.subgraph, List.mem_filter]

lemma mem_subgraph_edges {g : Graph} {keep : List String} {e : CEdge} :
    e ∈ (g.subgraph keep).edges ↔ e ∈ g.edges ∧ e.1 ∈ keep ∧ e.2 ∈ keep := by
  simp [Graph.subgraph, List.mem_filter, and_assoc]

lemma subgraph_wf {g : Graph} (wf : GraphWF g) (keep : List String) :
    GraphWF (g.subgraph keep) := by
  refine ⟨List.Nodup.filter _ wf.nodesNodup, List.Nodup.filter _ wf.edgesNodup, ?_, ?_⟩
  · intro e he
    rw [mem_subgraph_edges] at he
    rw [mem_subgraph_nodes]
    exact ⟨wf.edgeFst e he.1, he.2.1⟩
  · intro e he
    rw [mem_subgraph_edges] at he
    rw [mem_subgraph_nodes]
    exact ⟨wf.edgeSnd e he.1, he.2.2⟩

lemma acyclic_subgraph {g : Graph} {keep : List String} (hacyc : Acyclic g) :
    Acyclic (g.subgraph keep) := by
  intro n hn
  refine hacyc n (hn.mono ?_)
  intro a b hab
  exact List.mem_of_mem_filter hab

lemma mem_ancestors {g : Graph} {c n : String} (wf : GraphWF g) :
    n ∈ ancestors g c ↔ n ∈ g.nodes ∧ n ≠ c ∧ Relation.TransGen (EdgeRel g) n c := by
  unfold ancestors
  rw [List.mem_filter]
  simp only [Bool.and_eq_true, decide_eq_true_eq]
  constructor
  · rintro ⟨h1, h2, h3⟩
    refine ⟨h1, h2, (reaches_iff wf).mp ?_⟩
    simpa [reachesb] using h3
  · rintro ⟨h1, h2, h3⟩
    refine ⟨h1, h2, ?_⟩
    simpa [reachesb] using (reaches_iff wf).mpr h3

/-- C3: over an acyclic component graph, `BuildInfo.dependencies` yields a
duplicate-free sequence whose members are exactly the nodes with a directed
(nonempty) path to the component, ordered so that every induced edge goes
from an earlier to a later position (a valid topological order of the
transitive ancestors), and `BuildInfo.components` is that sequence with the
component appended last. -/
theorem buildInfoDependencies_spec (bi : BuildInfo)
    (hwf : GraphWF bi.componentGraph)
    (hacyc : findCycle bi.componentGraph = none) :
    ∃ ds, BuildInfo.dependencies bi = some ds ∧ ds.Nodup ∧
      (∀ n, n ∈ ds ↔ Relation.TransGen (EdgeRel bi.componentGraph) n bi.component) ∧
      (∀ e ∈ bi.componentGraph.edges, e.1 ∈ ds → e.2 ∈ ds → [e.1, e.2].Sublist ds) ∧
      BuildInfo.components bi = some (ds ++ [bi.component]) := by
  have hsubwf : GraphWF (bi.componentGraph.subgraph
      (ancestors bi.componentGraph bi.component)) := subgraph_wf hwf _
  have hag : Acyclic bi.componentGraph := acyclic_of_findCycle_none hwf hacyc
  have hasub : Acyclic (bi.componentGraph.subgraph
      (ancestors bi.componentGraph bi.component)) := acyclic_subgraph hag
  obtain ⟨ds, hds⟩ := topologicalSort_isSome hsubwf hasub
  have hds' : BuildInfo.dependencies bi = some ds := hds
  have hperm := topologicalSort_perm hds
  have hmem : ∀ n, n ∈ ds ↔
      Relation.TransGen (EdgeRel bi.componentGraph) n bi.component := by
    intro n
    rw [hperm.mem_iff, mem_subgraph_nodes, mem_ancestors hwf]
    constructor
    · rintro ⟨h1, _, _, h4⟩
      exact h4
    · intro h
      have h1 : n ∈ bi.componentGraph.nodes := transGen_fst_mem hwf h
      have h2 : n ≠ bi.component := by
        rintro rfl
        exact hag _ h
      exact ⟨h1, h1, h2, h⟩
  refine ⟨ds, hds', (hperm.nodup_iff).mpr hsubwf.nodesNodup, hmem, ?_, ?_⟩
  · intro e he h1 h2
    have ht1 := (hmem e.1).mp h1
    have ht2 := (hmem e.2).mp h2
    have hk1 : e.1 ∈ ancestors bi.componentGraph bi.component :=
      (mem_ancestors hwf).mpr ⟨transGen_fst_mem hwf ht1,
        fun h => hag _ (h ▸ ht1), ht1⟩
    have hk2 : e.2 ∈ ancestors bi.componentGraph bi.component :=
      (mem_ancestors hwf).mpr ⟨transGen_fst_mem hwf ht2,
        fun h => hag _ (h ▸ ht2), ht2⟩
    have hesub : (e.1, e.2) ∈ (bi.componentGraph.subgraph
        (ancestors bi.componentGraph bi.component)).edges :=
      mem_subgraph_edges.mpr ⟨he, hk1, hk2⟩
    exact topologicalSort_respects hds hesub
      (hperm.mem_iff.mp h1) (hperm.mem_iff.mp h2)
  · simp only [BuildInfo.components]
    rw [hds']
    rfl

/-- The chain declarations: `b` depends on `a`, `c` depends on `b`. -/
def cfgOfChain : String → ComponentConfig := fun x =>
  if x = "b" then ⟨Val.vmap [("dependencies", Val.vlist [Val.vstr "a"])]⟩
  else if x = "c" then ⟨Val.vmap [("dependencies", Val.vlist [Val.vstr "b"])]⟩
  else ⟨Val.vmap []⟩

/-- The build info for component `c` of the chain project. -/
def biChain : BuildInfo :=
  ⟨"p", "c", buildGraph ["a", "b", "c"] cfgOfChain, ⟨Val.vmap []⟩, "local", "3.8"⟩

/-- C3 (witness): the three-component chain, for component c. -/
theorem buildInfoDependencies_spec_witness :
    ∃ ds, BuildInfo.dependencies biChain = some ds ∧ ds.Nodup ∧
      (∀ n, n ∈ ds ↔
        Relation.TransGen (EdgeRel biChain.componentGraph) n biChain.component) ∧
      (∀ e ∈ biChain.componentGraph.edges, e.1 ∈ ds → e.2 ∈ ds →
        [e.1, e.2].Sublist ds) ∧
      BuildInfo.components biChain = some (ds ++ [biChain.component]) :=
  buildInfoDependencies_spec biChain (buildGraph_wf _ _) rfl
